import Mathlib

/-
Verification of the einsteinpy symbolic tensor module
(`src/einsteinpy/symbolic/tensor.py`).

The module is embedded shallowly: sympy N-dimensional arrays become a
`shape` plus an entry function over index lists, the symbolic scalars
become an arbitrary commutative ring, and the dynamically typed Python
arguments become small inductive types tagging the recognized cases.
The definitions mirror the Python source function by function; the
theorems settle the specified properties of the validator, the diff
engine, the index transform engine and the `Tensor` /
`BaseRelativityTensor` data model.
-/

namespace einsteinpy

/-- Shallow embedding of a sympy/numpy N-dimensional array: an explicit
shape together with an entry function on index lists.  Entries at index
lists that are out of range for the shape are irrelevant junk. -/
structure NDArr (α : Type) where
  shape : List Nat
  val : List Nat → α

/-- sympy `tensorproduct` of two arrays: shapes concatenate and an entry
is the product of the two factor entries. -/
def tensorproduct [Mul α] (a b : NDArr α) : NDArr α :=
  ⟨a.shape ++ b.shape,
   fun ix => a.val (ix.take a.shape.length) * b.val (ix.drop a.shape.length)⟩

/-- sympy `tensorcontraction` over the axis pair `(p, q)` with `p < q`:
the two axes are removed from the shape and entries are summed over the
paired axes, the summation bound being the extent of axis `p`. -/
def tensorcontraction [AddCommMonoid α] (a : NDArr α) (p q : Nat) : NDArr α :=
  ⟨(a.shape.eraseIdx q).eraseIdx p,
   fun ix => ∑ k ∈ Finset.range (a.shape.getD p 0),
     a.val ((ix.insertIdx p k).insertIdx q k)⟩

/-- numpy `np.moveaxis` as invoked in `_change_config`, where `source` is
always `[0, …, rank-1]`: axis `k` of `a` is moved to position `dest[k]`,
so the entry of the result at index list `ix` reads axis `k` of `a` at
`ix[dest[k]]`, and position `p` of the new shape holds the extent of the
axis `dest.indexOf p`. -/
def moveaxis (a : NDArr α) (dest : List Nat) : NDArr α :=
  ⟨(List.range a.shape.length).map fun p => a.shape.getD (dest.indexOf p) 0,
   fun ix => a.val ((List.range a.shape.length).map fun k => ix.getD (dest.getD k 0) 0)⟩

/-- sympy `simplify`: algebraic simplification preserves the symbolic
value of every entry, so on the shallow embedding (values in a ring) it
is the identity. -/
def sSimplify (a : NDArr α) : NDArr α := a

/-- A Python value passed as a configuration argument: either a string
or some non-string object. -/
inductive PyConfig where
  | str (s : String)
  | nonStr

/-- einsteinpy `_config_checker`: `True` iff the argument is a string
every character of which is `'l'` or `'u'` (the loop returns `False` at
the first foreign character, else `True`). -/
def config_checker : PyConfig → Bool
  | .str s => s.toList.all fun ch => ch == 'l' || ch == 'u'
  | .nonStr => false

/-- einsteinpy `_difference_list(newconfig, oldconfig)`: the per-axis
action list, `0` where the characters agree, `1` where the new character
is `'u'`, `-1` otherwise. -/
def difference_list (newconfig oldconfig : String) : List Int :=
  (newconfig.toList.zip oldconfig.toList).map fun p =>
    if p.1 = p.2 then 0 else if p.1 = 'u' then 1 else -1

/-- The metric collaborator used by `_change_config` (the external
`MetricTensor` class): `lowerT` models `metric.lower_config().tensor()`
(covariant form) and `upperT` models
`metric.lower_config().inv().tensor()` (contravariant form). -/
structure MetricLike (α : Type) where
  lowerT : NDArr α
  upperT : NDArr α

/-- The `met_dict` dictionary of `_change_config`: action `1` selects the
contravariant form, action `-1` the covariant form. -/
def met_dict (metric : MetricLike α) (action : Int) : NDArr α :=
  if action = 1 then metric.upperT else metric.lowerT

/-- The `dest` list built for the reshuffle in `_change_config`:
`dest = list(range(n)); dest.pop(i); dest.insert(0, i)`. -/
def destList (i n : Nat) : List Nat := i :: (List.range n).eraseIdx i

/-- One raise/lower step of `chain_config_change`: tensor product of the
chosen metric form with the current array, contraction of product axes
`(1, 2 + i)`, simplification, then the `np.moveaxis` reshuffle built
from the rank of the contracted array. -/
def transform_step [CommRing α] (g t : NDArr α) (i : Nat) : NDArr α :=
  let t1 := sSimplify (tensorcontraction (tensorproduct g t) 1 (2 + i))
  moveaxis t1 (destList i t1.shape.length)

/-- The loop body of `chain_config_change`: `continue` past action `0`,
otherwise apply one metric contraction step at the enumerated axis
position. -/
def config_action [CommRing α] (metric : MetricLike α)
    (t : NDArr α) (ia : Nat × Int) : NDArr α :=
  if ia.2 = 0 then t else transform_step (met_dict metric ia.2) t ia.1

/-- einsteinpy `chain_config_change` inside `_change_config`: a
left-to-right fold of the loop body over the enumerated action list. -/
def chain_config_change [CommRing α] (metric : MetricLike α) (arr : NDArr α)
    (newconfig oldconfig : String) : NDArr α :=
  (List.enum (difference_list newconfig oldconfig)).foldl (config_action metric) arr

/-- Error taxonomy of the module: `invalidType` for the array-argument
`TypeError` and `invalidConfiguration` for the configuration
`TypeError` / `ValueError`. -/
inductive TensorErr where
  | invalidType
  | invalidConfiguration
deriving DecidableEq

/-- A Python value passed as the `arr` argument of `Tensor.__init__`:
the recognized containers, a recognized scalar, an existing sympy
array, or anything else (such as `None`). -/
inductive PyArr (α : Type) where
  | list (a : NDArr α)
  | scalar (x : α)
  | arr (a : NDArr α)
  | pyNone

/-- The array normalization in `Tensor.__init__`: recognized containers
and scalars pass through `sympy.Array`, an existing sympy array is kept,
and any other object is refused. -/
def sympyArrayOf : PyArr α → Option (NDArr α)
  | .list a => some a
  | .scalar x => some ⟨[], fun _ => x⟩
  | .arr a => some a
  | .pyNone => none

/-- The `Tensor` data: the sympy array `arr`, the `_config` string and
the stored `_order = len(config)`. -/
structure Tensor (α : Type) where
  arr : NDArr α
  config : String
  order : Nat

/-- einsteinpy `Tensor.__init__`: normalize the array argument (raising
the `invalidType` error when it is unrecognized), then validate the
configuration with `_config_checker` (raising `invalidConfiguration`
otherwise) and store `order = len(config)`. -/
def tensorInit (a : PyArr α) (config : PyConfig) : Except TensorErr (Tensor α) :=
  match sympyArrayOf a with
  | none => .error .invalidType
  | some arr =>
    match config with
    | .str s =>
      if config_checker (.str s) then .ok ⟨arr, s, s.length⟩
      else .error .invalidConfiguration
    | .nonStr => .error .invalidConfiguration

/-- Elementwise application of a sympy substitution to an array
(`Array.subs` maps the substitution over every entry and never changes
the shape). -/
def NDArr.subsMap (σ : α → α) (a : NDArr α) : NDArr α :=
  ⟨a.shape, fun ix => σ (a.val ix)⟩

/-- einsteinpy `Tensor.subs`: `Tensor(self.tensor().subs(*args))` — the
substituted array is rewrapped through `Tensor.__init__` with the
constructor's default configuration `"ll"`. -/
def Tensor.subs (t : Tensor α) (σ : α → α) : Except TensorErr (Tensor α) :=
  tensorInit (.arr (t.arr.subsMap σ)) (.str "ll")

/-- einsteinpy `_change_config(tensor, metric, newconfig)`: reject the
new configuration (with `ValueError`, mapped to `invalidConfiguration`)
unless it has the length of the tensor's current configuration and
passes `_config_checker`; otherwise run `chain_config_change`. -/
def change_config [CommRing α] (t : Tensor α) (metric : MetricLike α)
    (newconfig : String) : Except TensorErr (NDArr α) :=
  if newconfig.length = t.config.length ∧ config_checker (.str newconfig) = true
  then .ok (chain_config_change metric t.arr newconfig t.config)
  else .error .invalidConfiguration

/-- A valid index list for rank `n` and uniform extent `d`: length `n`
with every entry below `d`. -/
def ValidIx (d n : Nat) (ix : List Nat) : Prop :=
  ix.length = n ∧ ∀ x ∈ ix, x < d

/-- A sympy symbol, identified by its name (`Symbol.name`). -/
structure Sym where
  name : String
deriving DecidableEq

/-- Lexicographic comparison of names by character code, the order that
`list.sort(key=lambda var: var.name)` sorts by. -/
def nameLe : List Char → List Char → Bool
  | [], _ => true
  | _ :: _, [] => false
  | a :: as, b :: bs =>
    if a.toNat < b.toNat then true
    else if b.toNat < a.toNat then false
    else nameLe as bs

/-- Stable insertion of a symbol into a name-sorted list (ties keep the
inserted element first, matching a stable sort of the original order). -/
def insertSorted (v : Sym) : List Sym → List Sym
  | [] => [v]
  | w :: ws =>
    if nameLe v.name.data w.name.data then v :: w :: ws else w :: insertSorted v ws

/-- Stable sort of a symbol list by name, modelling `list.sort` with the
name key. -/
def sortByName : List Sym → List Sym
  | [] => []
  | v :: vs => insertSorted v (sortByName vs)

/-- The auto-computation of `BaseRelativityTensor.variables`:
`[v for v in self.arr.free_symbols if v not in self.syms]`, sorted by
symbol name.  The free-symbol set of the array is scanned by sympy and
is passed here as data. -/
def computeVariables (free_symbols syms : List Sym) : List Sym :=
  sortByName (free_symbols.filter fun v => decide (v ∉ syms))

/-- The `variables` branch of `BaseRelativityTensor.__init__`: an empty
(falsy) `variables` argument triggers the auto-computation, a non-empty
one is stored as given (`list(variables)`).  The omitted-argument
default is the empty list. -/
def brtVariables (free_symbols syms variablesArg : List Sym) : List Sym :=
  if variablesArg.isEmpty then computeVariables free_symbols syms else variablesArg

/-- The `functions` branch of `BaseRelativityTensor.__init__`: an empty
(falsy) `functions` argument stores the undefined-function atoms
collected from the array, a non-empty one is stored as given. -/
def brtFunctions (function_atoms functions : List Sym) : List Sym :=
  if functions.isEmpty then function_atoms else functions

/-! Helper lemmas shared by the claim theorems. -/

/-- Unfolding of `Tensor.__init__` at a recognized array argument. -/
theorem tensorInit_some {a : PyArr α} {arr0 : NDArr α}
    (h : sympyArrayOf a = some arr0) (s : String) :
    tensorInit a (.str s) =
      if config_checker (.str s) = true then .ok ⟨arr0, s, s.length⟩
      else .error .invalidConfiguration := by
  unfold tensorInit
  rw [h]

/-- Any successful run of `Tensor.__init__` stores `order = len(config)`. -/
theorem tensorInit_order {a : PyArr α} {c : PyConfig} {t : Tensor α}
    (h : tensorInit a c = .ok t) : t.order = t.config.length := by
  unfold tensorInit at h
  repeat' split at h
  all_goals first
    | (cases h; rfl)
    | exact absurd h (by simp)

/-- Zipping a list with itself pairs each element with itself. -/
theorem zip_self (l : List α) : l.zip l = l.map fun x => (x, x) := by
  induction l with
  | nil => rfl
  | cons x xs ih => simpa [List.zip_cons_cons] using ih

/-- The action list for an unchanged configuration is all zeros. -/
theorem difference_list_self (c : String) :
    ∀ x ∈ difference_list c c, x = 0 := by
  intro x hx
  unfold difference_list at hx
  rw [zip_self] at hx
  simp only [List.map_map, List.mem_map, Function.comp] at hx
  obtain ⟨ch, _, hch⟩ := hx
  simpa using hch.symm

/-- The value component of an entry of `List.enumFrom` is a member of
the underlying list. -/
theorem snd_mem_of_mem_enumFrom {l : List α} :
    ∀ {j : Nat} {p : Nat × α}, p ∈ List.enumFrom j l → p.2 ∈ l := by
  induction l with
  | nil => intro j p h; simp [List.enumFrom] at h
  | cons x xs ih =>
    intro j p h
    rw [List.enumFrom_cons, List.mem_cons] at h
    rcases h with h | h
    · simp [h]
    · exact List.mem_cons_of_mem x (ih h)

/-- The position component of an entry of `List.enumFrom` lies between
the starting offset and offset plus length. -/
theorem fst_bounds_of_mem_enumFrom {l : List α} :
    ∀ {j : Nat} {p : Nat × α}, p ∈ List.enumFrom j l →
      j ≤ p.1 ∧ p.1 < j + l.length := by
  induction l with
  | nil => intro j p h; simp [List.enumFrom] at h
  | cons x xs ih =>
    intro j p h
    rw [List.enumFrom_cons, List.mem_cons] at h
    rcases h with h | h
    · subst h; simp
    · obtain ⟨h1, h2⟩ := ih h
      refine ⟨Nat.le_of_succ_le h1, ?_⟩
      simp only [List.length_cons]
      omega

/-- A fold of the `chain_config_change` loop body over any action list
whose actions are all zero returns its argument unchanged. -/
theorem foldl_skip_zero [CommRing α] (metric : MetricLike α) :
    ∀ (L : List (Nat × Int)) (t : NDArr α), (∀ p ∈ L, p.2 = 0) →
      L.foldl (config_action metric) t = t := by
  intro L
  induction L with
  | nil => intro t _; rfl
  | cons p ps ih =>
    intro t hall
    have hp : p.2 = 0 := hall p (List.mem_cons_self p ps)
    simp only [List.foldl_cons, config_action, if_pos hp]
    exact ih t fun q hq => hall q (List.mem_cons_of_mem p hq)

/-- `chain_config_change` to the unchanged configuration is the
identity: every action is a no-op and the array passes through. -/
theorem chain_config_change_self [CommRing α] (metric : MetricLike α)
    (arr : NDArr α) (c : String) :
    chain_config_change metric arr c c = arr := by
  unfold chain_config_change
  apply foldl_skip_zero
  intro p hp
  exact difference_list_self c p.2 (snd_mem_of_mem_enumFrom hp)

/-- Inserting into a list adds one to its length. -/
theorem length_insertSorted (v : Sym) :
    ∀ l : List Sym, (insertSorted v l).length = l.length + 1 := by
  intro l
  induction l with
  | nil => rfl
  | cons w ws ih =>
    unfold insertSorted
    by_cases h : nameLe v.name.data w.name.data = true
    · rw [if_pos h]; rfl
    · rw [if_neg h]; simp [ih]

/-- Sorting preserves the length of a symbol list. -/
theorem length_sortByName :
    ∀ l : List Sym, (sortByName l).length = l.length := by
  intro l
  induction l with
  | nil => rfl
  | cons v vs ih => simp [sortByName, length_insertSorted, ih]

/-- Element of `(range n).eraseIdx i`: positions before `i` keep their
value, later positions are shifted up by one. -/
theorem getElem_eraseIdx_range {n i k : Nat}
    (hk : k < ((List.range n).eraseIdx i).length) :
    ((List.range n).eraseIdx i)[k] = if k < i then k else k + 1 := by
  rw [List.getElem_eraseIdx]
  by_cases h : k < i
  · rw [dif_pos h, if_pos h, List.getElem_range]
  · rw [dif_neg h, if_neg h, List.getElem_range]

/-- Length of `(range n).eraseIdx i` for an in-range `i`. -/
theorem length_eraseIdx_range {n i : Nat} (hi : i < n) :
    ((List.range n).eraseIdx i).length = n - 1 := by
  rw [List.length_eraseIdx, List.length_range, if_pos hi]

/-- Removing one entry of a replicated list shortens it by one. -/
theorem eraseIdx_replicate {α : Type} (x : α) :
    ∀ (n i : Nat), i < n →
      (List.replicate n x).eraseIdx i = List.replicate (n - 1) x := by
  intro n
  induction n with
  | zero => intro i h; exact absurd h (by omega)
  | succ m ih =>
    intro i h
    cases i with
    | zero =>
      rw [List.replicate_succ, List.eraseIdx_cons_zero]
      simp
    | succ i =>
      have hi : i < m := by omega
      rw [List.replicate_succ, List.eraseIdx_cons_succ, ih i hi]
      have hm : m = (m - 1) + 1 := by omega
      rw [show m + 1 - 1 = (m - 1) + 1 from by omega, List.replicate_succ]

/-- The index-permutation map of the `_change_config` reshuffle: reading
positions `dest[k]` of `ix` for `k = 0, …, n-1` yields the index list of
the contracted array, namely `ix[i]` followed by `ix` with position `i`
removed. -/
theorem map_range_destList (i : Nat) (ix : List Nat) (hi : i < ix.length) :
    (List.range ix.length).map
        (fun k => ix.getD ((destList i ix.length).getD k 0) 0)
      = ix.getD i 0 :: ix.eraseIdx i := by
  apply List.ext_getElem
  · rw [List.length_map, List.length_range, List.length_cons,
        List.length_eraseIdx, if_pos hi]
    omega
  · intro k h1 h2
    rw [List.getElem_map, List.getElem_range]
    cases k with
    | zero =>
      rw [List.getElem_cons_zero]
      rfl
    | succ k =>
      rw [List.getElem_cons_succ]
      have hklt : k < ix.length - 1 := by
        rw [List.length_map, List.length_range] at h1
        omega
      have hd : (destList i ix.length).getD (k + 1) 0
          = ((List.range ix.length).eraseIdx i).getD k 0 := List.getD_cons_succ
      rw [hd]
      have hlen' : k < ((List.range ix.length).eraseIdx i).length := by
        rw [length_eraseIdx_range hi]
        exact hklt
      rw [List.getD_eq_getElem _ _ hlen', getElem_eraseIdx_range hlen',
          List.getElem_eraseIdx]
      by_cases hki : k < i
      · rw [if_pos hki, dif_pos hki, List.getD_eq_getElem _ _ (by omega)]
      · rw [if_neg hki, dif_neg hki, List.getD_eq_getElem _ _ (by omega)]

/-- Erasing position `i` and re-inserting a value there is `List.set`. -/
theorem insertIdx_eraseIdx_eq_set {α : Type} (k : α) :
    ∀ (ix : List α) (i : Nat), i < ix.length →
      (ix.eraseIdx i).insertIdx i k = ix.set i k := by
  intro ix
  induction ix with
  | nil => intro i h; exact absurd h (by simp)
  | cons x xs ih =>
    intro i h
    cases i with
    | zero =>
      rw [List.eraseIdx_cons_zero, List.insertIdx_zero]
      rfl
    | succ i =>
      have h' : i < xs.length := by simpa using h
      rw [List.eraseIdx_cons_succ, List.insertIdx_succ_cons,
          List.set_cons_succ, ih i h']

/-- Writing back the entry already stored at an in-range position is the
identity. -/
theorem set_getD_eq_self (ix : List Nat) (i : Nat) (h : i < ix.length) :
    ix.set i (ix.getD i 0) = ix := by
  apply List.ext_getElem
  · simp [List.length_set]
  · intro m h1 h2
    rw [List.getElem_set]
    by_cases hm : i = m
    · subst hm
      rw [if_pos rfl, List.getD_eq_getElem _ _ h]
    · rw [if_neg hm]

/-- Reading an in-range position distinct from the written one. -/
theorem getD_set_ne (ix : List Nat) {i j : Nat} (k : Nat) (hij : i ≠ j)
    (hj : j < ix.length) : (ix.set i k).getD j 0 = ix.getD j 0 := by
  rw [List.getD_eq_getElem _ _ (by rw [List.length_set]; exact hj),
      List.getD_eq_getElem _ _ hj, List.getElem_set, if_neg hij]

/-- Reading back the written position. -/
theorem getD_set_self (ix : List Nat) (i k : Nat) (h : i < ix.length) :
    (ix.set i k).getD i 0 = k := by
  rw [List.getD_eq_getElem _ _ (by rw [List.length_set]; exact h),
      List.getElem_set, if_pos rfl]

/-- Entries of a bounded index list stay bounded after `List.set` with a
bounded value. -/
theorem mem_set_lt {ix : List Nat} {i k d : Nat} (hix : ∀ x ∈ ix, x < d)
    (hk : k < d) : ∀ x ∈ ix.set i k, x < d := by
  intro x hx
  rcases List.mem_or_eq_of_mem_set hx with h | h
  · exact hix x h
  · rw [h]
    exact hk

/-- Every position below `n` occurs in the reshuffle destination list. -/
theorem mem_destList {p i n : Nat} (hp : p < n) (hi : i < n) :
    p ∈ destList i n := by
  unfold destList
  rw [List.mem_cons]
  by_cases h : p = i
  · exact Or.inl h
  · right
    rw [List.mem_iff_getElem]
    by_cases hpi : p < i
    · refine ⟨p, ?_, ?_⟩
      · rw [length_eraseIdx_range hi]
        omega
      · rw [getElem_eraseIdx_range (by rw [length_eraseIdx_range hi]; omega),
            if_pos hpi]
    · refine ⟨p - 1, ?_, ?_⟩
      · rw [length_eraseIdx_range hi]
        omega
      · rw [getElem_eraseIdx_range (by rw [length_eraseIdx_range hi]; omega),
            if_neg (by omega)]
        omega

/-- Both metric forms returned by `met_dict` are square of dimension `d`
whenever the collaborator's forms are. -/
theorem met_dict_shape {metric : MetricLike α} {d : Nat}
    (hL : metric.lowerT.shape = [d, d]) (hU : metric.upperT.shape = [d, d])
    (a : Int) : (met_dict metric a).shape = [d, d] := by
  unfold met_dict
  by_cases h : a = 1
  · rw [if_pos h]
    exact hU
  · rw [if_neg h]
    exact hL

/-- Shape of the product-then-contract stage of one transform step: with
a square metric and a uniform shape, axes `1` and `2 + i` cancel and the
shape is again `n` axes of extent `d`. -/
theorem contracted_shape [CommRing α] {g t : NDArr α} {d n i : Nat}
    (hg : g.shape = [d, d]) (ht : t.shape = List.replicate n d) (hi : i < n) :
    (tensorcontraction (tensorproduct g t) 1 (2 + i)).shape
      = List.replicate n d := by
  show ((g.shape ++ t.shape).eraseIdx (2 + i)).eraseIdx 1 = _
  rw [hg, ht]
  rw [show ([d, d] ++ List.replicate n d : List Nat)
      = d :: d :: List.replicate n d from rfl]
  have e1 : (d :: d :: List.replicate n d).eraseIdx (2 + i)
      = d :: d :: (List.replicate n d).eraseIdx i := by
    rw [show (2 + i) = (i + 1) + 1 from by omega, List.eraseIdx_cons_succ,
        List.eraseIdx_cons_succ]
  rw [e1, eraseIdx_replicate d n i hi]
  rw [show (d :: d :: List.replicate (n - 1) d).eraseIdx 1
      = d :: List.replicate (n - 1) d from rfl]
  conv_rhs => rw [show n = (n - 1) + 1 from by omega, List.replicate_succ]

/-- One transform step preserves the rank and the uniform shape. -/
theorem transform_step_shape [CommRing α] {g t : NDArr α} {d n : Nat}
    (hg : g.shape = [d, d]) (ht : t.shape = List.replicate n d)
    {i : Nat} (hi : i < n) :
    (transform_step g t i).shape = List.replicate n d := by
  have hc := contracted_shape hg ht hi
  simp only [transform_step, sSimplify, moveaxis]
  rw [hc, List.length_replicate]
  apply List.ext_getElem
  · rw [List.length_map, List.length_range, List.length_replicate]
  · intro p h1 h2
    rw [List.getElem_map, List.getElem_range, List.getElem_replicate]
    have hplt : p < n := by
      rw [List.length_map, List.length_range] at h1
      exact h1
    have hmem : p ∈ destList i n := mem_destList hplt hi
    have hidx : (destList i n).indexOf p < (destList i n).length :=
      List.indexOf_lt_length.mpr hmem
    have hdl : (destList i n).length = n := by
      unfold destList
      rw [List.length_cons, length_eraseIdx_range hi]
      omega
    have hidx' : List.indexOf p (destList i n) < n := by
      rw [hdl] at hidx
      exact hidx
    rw [List.getD_eq_getElem _ _ (by rw [List.length_replicate]; exact hidx'),
      List.getElem_replicate]

/-- Entry formula for one transform step: at every index list of the
right rank, the result at `ix` contracts the metric's second axis with
axis `i` of the tensor while axis `i` of the result is fed to the
metric's first axis and all other axes pass through untouched. -/
theorem transform_step_val [CommRing α] {g t : NDArr α} {d n : Nat}
    (hg : g.shape = [d, d]) (ht : t.shape = List.replicate n d)
    {i : Nat} (hi : i < n) {ix : List Nat} (hix : ix.length = n) :
    (transform_step g t i).val ix
      = ∑ k ∈ Finset.range d, g.val [ix.getD i 0, k] * t.val (ix.set i k) := by
  have hc := contracted_shape hg ht hi
  have hgl : g.shape.length = 2 := by rw [hg]; rfl
  have hcl : (tensorcontraction (tensorproduct g t) 1 (2 + i)).shape.length
      = n := by rw [hc, List.length_replicate]
  simp only [transform_step, sSimplify, moveaxis]
  rw [hcl]
  rw [show (List.range n).map
        (fun k => ix.getD ((destList i n).getD k 0) 0)
      = (List.range ix.length).map
        (fun k => ix.getD ((destList i ix.length).getD k 0) 0) from by rw [hix]]
  rw [map_range_destList i ix (by rw [hix]; exact hi)]
  simp only [tensorcontraction]
  have hbound : (tensorproduct g t).shape.getD 1 0 = d := by
    simp only [tensorproduct]
    rw [hg]
    rfl
  rw [hbound]
  apply Finset.sum_congr rfl
  intro k hk
  have hins : ((ix.getD i 0 :: ix.eraseIdx i).insertIdx 1 k).insertIdx (2 + i) k
      = ix.getD i 0 :: k :: ((ix.eraseIdx i).insertIdx i k) := by
    rw [show ((ix.getD i 0 :: ix.eraseIdx i).insertIdx 1 k)
        = ix.getD i 0 :: k :: ix.eraseIdx i from rfl]
    rw [show (2 + i) = (i + 1) + 1 from by omega, List.insertIdx_succ_cons,
        List.insertIdx_succ_cons]
  rw [hins, insertIdx_eraseIdx_eq_set k ix i (by rw [hix]; exact hi)]
  simp only [tensorproduct]
  rw [hgl]
  rfl

/-- Folding the loop body over positions below `n` preserves the
uniform shape. -/
theorem foldl_steps_shape [CommRing α] {metric : MetricLike α} {d n : Nat}
    (hL : metric.lowerT.shape = [d, d]) (hU : metric.upperT.shape = [d, d]) :
    ∀ (L : List (Nat × Int)) (t : NDArr α), t.shape = List.replicate n d →
      (∀ p ∈ L, p.1 < n) →
      (L.foldl (config_action metric) t).shape = List.replicate n d := by
  intro L
  induction L with
  | nil => intro t ht _; exact ht
  | cons p ps ih =>
    intro t ht hall
    rw [List.foldl_cons]
    by_cases hz : p.2 = 0
    · rw [show config_action metric t p = t from by
        unfold config_action; rw [if_pos hz]]
      exact ih t ht fun q hq => hall q (List.mem_cons_of_mem p hq)
    · rw [show config_action metric t p
          = transform_step (met_dict metric p.2) t p.1 from by
        unfold config_action; rw [if_neg hz]]
      exact ih _ (transform_step_shape (met_dict_shape hL hU p.2) ht
          (hall p (List.mem_cons_self p ps)))
        fun q hq => hall q (List.mem_cons_of_mem p hq)

/-- Helper: the length of the action list is the shorter configuration
length. -/
theorem difference_list_length (new old : String) :
    (difference_list new old).length = min new.length old.length := by
  unfold difference_list
  rw [List.length_map, List.length_zip]
  rfl

/-- `chain_config_change` preserves rank and shape of a uniform-extent
array under a square metric. -/
theorem chain_config_change_shape [CommRing α] {metric : MetricLike α}
    {arr : NDArr α} {d n : Nat}
    (hL : metric.lowerT.shape = [d, d]) (hU : metric.upperT.shape = [d, d])
    (ht : arr.shape = List.replicate n d) {newconfig oldconfig : String}
    (hnew : newconfig.length = n) (hold : oldconfig.length = n) :
    (chain_config_change metric arr newconfig oldconfig).shape
      = List.replicate n d := by
  unfold chain_config_change
  apply foldl_steps_shape hL hU _ arr ht
  intro p hp
  have hp' : p ∈ List.enumFrom 0 (difference_list newconfig oldconfig) := hp
  have hb := fst_bounds_of_mem_enumFrom hp'
  rw [difference_list_length, hnew, hold] at hb
  omega

/-- Two arrays that agree entrywise on valid indices still agree after
one transform step with the same metric form. -/
theorem transform_step_congr [CommRing α] {g a b : NDArr α} {d n : Nat}
    (hg : g.shape = [d, d]) (ha : a.shape = List.replicate n d)
    (hb : b.shape = List.replicate n d) {i : Nat} (hi : i < n)
    (hab : ∀ ix, ValidIx d n ix → a.val ix = b.val ix) :
    ∀ ix, ValidIx d n ix →
      (transform_step g a i).val ix = (transform_step g b i).val ix := by
  rintro ix ⟨hlen, hmem⟩
  rw [transform_step_val hg ha hi hlen, transform_step_val hg hb hi hlen]
  apply Finset.sum_congr rfl
  intro k hk
  rw [hab (ix.set i k)
    ⟨by rw [List.length_set]; exact hlen,
     mem_set_lt hmem (Finset.mem_range.mp hk)⟩]

/-- Acting on axis `i` with `gA` and then with `gB` cancels entrywise on
valid indices whenever `gB · gA` is the identity matrix. -/
theorem transform_step_inverse [CommRing α] {gA gB t : NDArr α} {d n : Nat}
    (hgA : gA.shape = [d, d]) (hgB : gB.shape = [d, d])
    (ht : t.shape = List.replicate n d) {i : Nat} (hi : i < n)
    (hinv : ∀ a b, a < d → b < d →
      (∑ k ∈ Finset.range d, gB.val [a, k] * gA.val [k, b])
        = if a = b then 1 else 0) :
    ∀ ix, ValidIx d n ix →
      (transform_step gB (transform_step gA t i) i).val ix = t.val ix := by
  rintro ix ⟨hlen, hmem⟩
  have hsA : (transform_step gA t i).shape = List.replicate n d :=
    transform_step_shape hgA ht hi
  have hiix : i < ix.length := by rw [hlen]; exact hi
  have ha : ix.getD i 0 < d := by
    rw [List.getD_eq_getElem _ _ hiix]
    exact hmem _ (List.getElem_mem hiix)
  rw [transform_step_val hgB hsA hi hlen]
  have step1 : ∀ k ∈ Finset.range d,
      gB.val [ix.getD i 0, k] * (transform_step gA t i).val (ix.set i k)
        = ∑ m ∈ Finset.range d,
            gB.val [ix.getD i 0, k] * (gA.val [k, m] * t.val (ix.set i m)) := by
    intro k hk
    rw [transform_step_val hgA ht hi (by rw [List.length_set]; exact hlen)]
    rw [getD_set_self ix i k hiix, Finset.mul_sum]
    apply Finset.sum_congr rfl
    intro m hm
    rw [List.set_set]
  rw [Finset.sum_congr rfl step1, Finset.sum_comm]
  have step2 : ∀ m ∈ Finset.range d,
      (∑ k ∈ Finset.range d,
          gB.val [ix.getD i 0, k] * (gA.val [k, m] * t.val (ix.set i m)))
        = (if ix.getD i 0 = m then 1 else 0) * t.val (ix.set i m) := by
    intro m hm
    have hassoc : ∀ k ∈ Finset.range d,
        gB.val [ix.getD i 0, k] * (gA.val [k, m] * t.val (ix.set i m))
          = gB.val [ix.getD i 0, k] * gA.val [k, m] * t.val (ix.set i m) := by
      intro k hk
      ring
    rw [Finset.sum_congr rfl hassoc, ← Finset.sum_mul,
        hinv _ _ ha (Finset.mem_range.mp hm)]
  rw [Finset.sum_congr rfl step2]
  have step3 : ∀ m ∈ Finset.range d,
      (if ix.getD i 0 = m then 1 else 0) * t.val (ix.set i m)
        = if ix.getD i 0 = m then t.val (ix.set i m) else 0 := by
    intro m hm
    by_cases h : ix.getD i 0 = m
    · rw [if_pos h, if_pos h, one_mul]
    · rw [if_neg h, if_neg h, zero_mul]
  rw [Finset.sum_congr rfl step3, Finset.sum_ite_eq,
      if_pos (Finset.mem_range.mpr ha), set_getD_eq_self ix i hiix]

/-- Transform steps at distinct axes commute entrywise on valid
indices. -/
theorem transform_step_comm [CommRing α] {g h2 t : NDArr α} {d n : Nat}
    (hg : g.shape = [d, d]) (hh : h2.shape = [d, d])
    (ht : t.shape = List.replicate n d) {i j : Nat} (hi : i < n) (hj : j < n)
    (hij : i ≠ j) :
    ∀ ix, ValidIx d n ix →
      (transform_step g (transform_step h2 t j) i).val ix
        = (transform_step h2 (transform_step g t i) j).val ix := by
  rintro ix ⟨hlen, hmem⟩
  have hsH : (transform_step h2 t j).shape = List.replicate n d :=
    transform_step_shape hh ht hj
  have hsG : (transform_step g t i).shape = List.replicate n d :=
    transform_step_shape hg ht hi
  have hiix : i < ix.length := by rw [hlen]; exact hi
  have hjix : j < ix.length := by rw [hlen]; exact hj
  rw [transform_step_val hg hsH hi hlen, transform_step_val hh hsG hj hlen]
  have eL : ∀ k ∈ Finset.range d,
      g.val [ix.getD i 0, k] * (transform_step h2 t j).val (ix.set i k)
        = ∑ m ∈ Finset.range d,
            g.val [ix.getD i 0, k] *
              (h2.val [ix.getD j 0, m] * t.val ((ix.set j m).set i k)) := by
    intro k hk
    rw [transform_step_val hh ht hj (by rw [List.length_set]; exact hlen)]
    rw [getD_set_ne ix k hij hjix, Finset.mul_sum]
    apply Finset.sum_congr rfl
    intro m hm
    rw [List.set_comm _ _ _ hij]
  have eR : ∀ m ∈ Finset.range d,
      h2.val [ix.getD j 0, m] * (transform_step g t i).val (ix.set j m)
        = ∑ k ∈ Finset.range d,
            h2.val [ix.getD j 0, m] *
              (g.val [ix.getD i 0, k] * t.val ((ix.set j m).set i k)) := by
    intro m hm
    rw [transform_step_val hg ht hi (by rw [List.length_set]; exact hlen)]
    rw [getD_set_ne ix m (Ne.symm hij) hiix, Finset.mul_sum]
  rw [Finset.sum_congr rfl eL, Finset.sum_congr rfl eR, Finset.sum_comm]
  apply Finset.sum_congr rfl
  intro m hm
  apply Finset.sum_congr rfl
  intro k hk
  ring

/-- Folding the loop body preserves entrywise agreement on valid
indices. -/
theorem foldl_steps_congr [CommRing α] {metric : MetricLike α} {d n : Nat}
    (hL : metric.lowerT.shape = [d, d]) (hU : metric.upperT.shape = [d, d]) :
    ∀ (L : List (Nat × Int)) (a b : NDArr α),
      a.shape = List.replicate n d → b.shape = List.replicate n d →
      (∀ p ∈ L, p.1 < n) →
      (∀ ix, ValidIx d n ix → a.val ix = b.val ix) →
      ∀ ix, ValidIx d n ix →
        (L.foldl (config_action metric) a).val ix
          = (L.foldl (config_action metric) b).val ix := by
  intro L
  induction L with
  | nil => intro a b _ _ _ hab ix hix; exact hab ix hix
  | cons p ps ih =>
    intro a b ha hb hall hab ix hix
    rw [List.foldl_cons, List.foldl_cons]
    by_cases hz : p.2 = 0
    · rw [show config_action metric a p = a from by
          unfold config_action; rw [if_pos hz],
        show config_action metric b p = b from by
          unfold config_action; rw [if_pos hz]]
      exact ih a b ha hb (fun q hq => hall q (List.mem_cons_of_mem p hq))
        hab ix hix
    · rw [show config_action metric a p
          = transform_step (met_dict metric p.2) a p.1 from by
          unfold config_action; rw [if_neg hz],
        show config_action metric b p
          = transform_step (met_dict metric p.2) b p.1 from by
          unfold config_action; rw [if_neg hz]]
      have hp1 := hall p (List.mem_cons_self p ps)
      exact ih _ _ (transform_step_shape (met_dict_shape hL hU p.2) ha hp1)
        (transform_step_shape (met_dict_shape hL hU p.2) hb hp1)
        (fun q hq => hall q (List.mem_cons_of_mem p hq))
        (transform_step_congr (met_dict_shape hL hU p.2) ha hb hp1 hab) ix hix

/-- A transform step at an axis untouched by a fold moves through the
fold, entrywise on valid indices. -/
theorem foldl_steps_comm [CommRing α] {metric : MetricLike α} {d n : Nat}
    (hL : metric.lowerT.shape = [d, d]) (hU : metric.upperT.shape = [d, d])
    {g : NDArr α} (hg : g.shape = [d, d]) {i : Nat} (hi : i < n) :
    ∀ (L : List (Nat × Int)) (t : NDArr α), t.shape = List.replicate n d →
      (∀ p ∈ L, p.1 < n ∧ p.1 ≠ i) →
      ∀ ix, ValidIx d n ix →
        (transform_step g (L.foldl (config_action metric) t) i).val ix
          = (L.foldl (config_action metric) (transform_step g t i)).val ix := by
  intro L
  induction L with
  | nil => intro t ht _ ix hix; rfl
  | cons p ps ih =>
    intro t ht hall ix hix
    rw [List.foldl_cons, List.foldl_cons]
    by_cases hz : p.2 = 0
    · rw [show config_action metric t p = t from by
          unfold config_action; rw [if_pos hz],
        show config_action metric (transform_step g t i) p
          = transform_step g t i from by
          unfold config_action; rw [if_pos hz]]
      exact ih t ht (fun q hq => hall q (List.mem_cons_of_mem p hq)) ix hix
    · rw [show config_action metric t p
          = transform_step (met_dict metric p.2) t p.1 from by
          unfold config_action; rw [if_neg hz],
        show config_action metric (transform_step g t i) p
          = transform_step (met_dict metric p.2) (transform_step g t i) p.1
          from by unfold config_action; rw [if_neg hz]]
      have hp := hall p (List.mem_cons_self p ps)
      have hsh : (transform_step (met_dict metric p.2) t p.1).shape
          = List.replicate n d :=
        transform_step_shape (met_dict_shape hL hU p.2) ht hp.1
      rw [ih (transform_step (met_dict metric p.2) t p.1) hsh
        (fun q hq => hall q (List.mem_cons_of_mem p hq)) ix hix]
      exact foldl_steps_congr hL hU ps _ _
        (transform_step_shape hg hsh hi)
        (transform_step_shape (met_dict_shape hL hU p.2)
          (transform_step_shape hg ht hi) hp.1)
        (fun q hq => (hall q (List.mem_cons_of_mem p hq)).1)
        (fun ix' hix' => transform_step_comm hg (met_dict_shape hL hU p.2) ht hi
          hp.1 (Ne.symm hp.2) ix' hix')
        ix hix

/-- The loop body at action `0` is the `continue` branch. -/
theorem config_action_zero [CommRing α] (metric : MetricLike α) (t : NDArr α)
    (j : Nat) {a : Int} (h : a = 0) : config_action metric t (j, a) = t := by
  unfold config_action
  rw [if_pos h]

/-- The loop body at a nonzero action is one transform step. -/
theorem config_action_ne [CommRing α] (metric : MetricLike α) (t : NDArr α)
    (j : Nat) {a : Int} (h : ¬a = 0) :
    config_action metric t (j, a) = transform_step (met_dict metric a) t j := by
  unfold config_action
  rw [if_neg h]

/-- Round trip of the loop body: folding an action list and then the
negated action list over the same enumerated positions restores every
entry at valid indices, given mutually inverse metric forms. -/
theorem foldl_round_trip [CommRing α] {metric : MetricLike α} {d n : Nat}
    (hL : metric.lowerT.shape = [d, d]) (hU : metric.upperT.shape = [d, d])
    (hinv1 : ∀ a b, a < d → b < d →
      (∑ k ∈ Finset.range d, metric.lowerT.val [a, k] * metric.upperT.val [k, b])
        = if a = b then 1 else 0)
    (hinv2 : ∀ a b, a < d → b < d →
      (∑ k ∈ Finset.range d, metric.upperT.val [a, k] * metric.lowerT.val [k, b])
        = if a = b then 1 else 0) :
    ∀ (D D2 : List Int) (j : Nat) (t : NDArr α),
      t.shape = List.replicate n d →
      D.length = D2.length → j + D.length ≤ n →
      (∀ k, D2.getD k 0 = -(D.getD k 0)) →
      (∀ k, D.getD k 0 = 0 ∨ D.getD k 0 = 1 ∨ D.getD k 0 = -1) →
      ∀ ix, ValidIx d n ix →
        ((List.enumFrom j D2).foldl (config_action metric)
            ((List.enumFrom j D).foldl (config_action metric) t)).val ix
          = t.val ix := by
  intro D
  induction D with
  | nil =>
    intro D2 j t ht hlen _ _ _ ix hix
    have hD2 : D2 = [] := List.eq_nil_of_length_eq_zero hlen.symm
    subst hD2
    rfl
  | cons a Dt ih =>
    intro D2 j t ht hlen hbound hpair hvals ix hix
    cases D2 with
    | nil => exact absurd hlen (by simp)
    | cons b Dt2 =>
      have hba : b = -a := by simpa using hpair 0
      have hlen' : Dt.length = Dt2.length := by simpa using hlen
      have hpair' : ∀ k, Dt2.getD k 0 = -(Dt.getD k 0) := fun k => by
        simpa using hpair (k + 1)
      have hvals' : ∀ k, Dt.getD k 0 = 0 ∨ Dt.getD k 0 = 1 ∨ Dt.getD k 0 = -1 :=
        fun k => by simpa using hvals (k + 1)
      have ha3 : a = 0 ∨ a = 1 ∨ a = -1 := by simpa using hvals 0
      have hjn : j < n := by
        simp only [List.length_cons] at hbound
        omega
      have hbt : (j + 1) + Dt.length ≤ n := by
        simp only [List.length_cons] at hbound
        omega
      rw [List.enumFrom_cons, List.enumFrom_cons, List.foldl_cons,
          List.foldl_cons]
      by_cases hz : a = 0
      · have hb0 : b = 0 := by rw [hba, hz, neg_zero]
        rw [config_action_zero metric t j hz, config_action_zero metric _ j hb0]
        exact ih Dt2 (j + 1) t ht hlen' hbt hpair' hvals' ix hix
      · have hbz : ¬b = 0 := by
          rw [hba]
          intro hcon
          apply hz
          omega
        rw [config_action_ne metric t j hz, config_action_ne metric _ j hbz]
        have hgA : (met_dict metric a).shape = [d, d] := met_dict_shape hL hU a
        have hgB : (met_dict metric b).shape = [d, d] := met_dict_shape hL hU b
        have hsA : (transform_step (met_dict metric a) t j).shape
            = List.replicate n d := transform_step_shape hgA ht hjn
        have hpos : ∀ p ∈ List.enumFrom (j + 1) Dt, p.1 < n ∧ p.1 ≠ j := by
          intro p hp
          have hb2 := fst_bounds_of_mem_enumFrom hp
          exact ⟨by omega, by omega⟩
        have hpos2 : ∀ p ∈ List.enumFrom (j + 1) Dt2, p.1 < n := by
          intro p hp
          have hb2 := fst_bounds_of_mem_enumFrom hp
          omega
        have hX : (transform_step (met_dict metric b)
            (transform_step (met_dict metric a) t j) j).shape
            = List.replicate n d := transform_step_shape hgB hsA hjn
        have hFWD : ((List.enumFrom (j + 1) Dt).foldl (config_action metric)
            (transform_step (met_dict metric a) t j)).shape
            = List.replicate n d :=
          foldl_steps_shape hL hU _ _ hsA (fun p hp => (hpos p hp).1)
        have hinvBA : ∀ ix2, ValidIx d n ix2 →
            (transform_step (met_dict metric b)
              (transform_step (met_dict metric a) t j) j).val ix2
            = t.val ix2 := by
          intro ix2 hx2
          rcases ha3 with h0 | h1 | hm1
          · exact absurd h0 hz
          · have egA : met_dict metric a = metric.upperT := by
              rw [h1]
              unfold met_dict
              rw [if_pos rfl]
            have egB : met_dict metric b = metric.lowerT := by
              have hbm : b = -1 := by rw [hba, h1]
              rw [hbm]
              unfold met_dict
              rw [if_neg (by decide)]
            rw [egA, egB]
            exact transform_step_inverse hU hL ht hjn hinv1 ix2 hx2
          · have egA : met_dict metric a = metric.lowerT := by
              rw [hm1]
              unfold met_dict
              rw [if_neg (by decide)]
            have egB : met_dict metric b = metric.upperT := by
              have hbm : b = 1 := by rw [hba, hm1]; decide
              rw [hbm]
              unfold met_dict
              rw [if_pos rfl]
            rw [egA, egB]
            exact transform_step_inverse hL hU ht hjn hinv2 ix2 hx2
        have hstepA : ∀ ix2, ValidIx d n ix2 →
            (transform_step (met_dict metric b)
              ((List.enumFrom (j + 1) Dt).foldl (config_action metric)
                (transform_step (met_dict metric a) t j)) j).val ix2
            = ((List.enumFrom (j + 1) Dt).foldl (config_action metric)
                (transform_step (met_dict metric b)
                  (transform_step (met_dict metric a) t j) j)).val ix2 :=
          foldl_steps_comm hL hU hgB hjn _ _ hsA hpos
        have hinner : ∀ ix2, ValidIx d n ix2 →
            ((List.enumFrom (j + 1) Dt).foldl (config_action metric)
              (transform_step (met_dict metric b)
                (transform_step (met_dict metric a) t j) j)).val ix2
            = ((List.enumFrom (j + 1) Dt).foldl (config_action metric) t).val ix2 :=
          foldl_steps_congr hL hU _ _ _ hX ht (fun p hp => (hpos p hp).1) hinvBA
        calc ((List.enumFrom (j + 1) Dt2).foldl (config_action metric)
                (transform_step (met_dict metric b)
                  ((List.enumFrom (j + 1) Dt).foldl (config_action metric)
                    (transform_step (met_dict metric a) t j)) j)).val ix
            = ((List.enumFrom (j + 1) Dt2).foldl (config_action metric)
                ((List.enumFrom (j + 1) Dt).foldl (config_action metric)
                  (transform_step (met_dict metric b)
                    (transform_step (met_dict metric a) t j) j))).val ix :=
              foldl_steps_congr hL hU _ _ _
                (transform_step_shape hgB hFWD hjn)
                (foldl_steps_shape hL hU _ _ hX (fun p hp => (hpos p hp).1))
                hpos2 hstepA ix hix
          _ = ((List.enumFrom (j + 1) Dt2).foldl (config_action metric)
                ((List.enumFrom (j + 1) Dt).foldl (config_action metric) t)).val ix :=
              foldl_steps_congr hL hU _ _ _
                (foldl_steps_shape hL hU _ _ hX (fun p hp => (hpos p hp).1))
                (foldl_steps_shape hL hU _ _ ht (fun p hp => (hpos p hp).1))
                hpos2 hinner ix hix
          _ = t.val ix := ih Dt2 (j + 1) t ht hlen' hbt hpair' hvals' ix hix

/-- Every action emitted by the diff engine is `0`, `1` or `-1`. -/
theorem difference_list_mem_vals (new old : String) :
    ∀ x ∈ difference_list new old, x = 0 ∨ x = 1 ∨ x = -1 := by
  intro x hx
  unfold difference_list at hx
  rw [List.mem_map] at hx
  obtain ⟨p, _, hp⟩ := hx
  subst hp
  by_cases h1 : p.1 = p.2
  · left
    rw [if_pos h1]
  · by_cases h2 : p.1 = 'u'
    · right; left
      rw [if_neg h1, if_pos h2]
    · right; right
      rw [if_neg h1, if_neg h2]

/-- The `getD` form of the action-value lemma, with `0` past the end. -/
theorem difference_list_getD_vals (new old : String) (k : Nat) :
    (difference_list new old).getD k 0 = 0 ∨
    (difference_list new old).getD k 0 = 1 ∨
    (difference_list new old).getD k 0 = -1 := by
  by_cases hk : k < (difference_list new old).length
  · rw [List.getD_eq_getElem _ _ hk]
    exact difference_list_mem_vals new old _ (List.getElem_mem hk)
  · rw [List.getD_eq_default _ _ (by omega)]
    exact Or.inl rfl

/-- Elementwise characterization of the action list at in-range
positions. -/
theorem difference_list_getD {new old : String} {i : Nat}
    (h1 : i < new.length) (h2 : i < old.length) :
    (difference_list new old).getD i 0 =
      if new.toList.getD i 'u' = old.toList.getD i 'u' then 0
      else if new.toList.getD i 'u' = 'u' then 1 else -1 := by
  have h1' : i < new.toList.length := h1
  have h2' : i < old.toList.length := h2
  have hlen : i < (difference_list new old).length := by
    rw [difference_list_length]
    omega
  rw [List.getD_eq_getElem _ _ hlen, List.getD_eq_getElem _ _ h1',
      List.getD_eq_getElem _ _ h2']
  unfold difference_list
  rw [List.getElem_map, List.getElem_zip]

/-- Every in-range character of a validated configuration is `'l'` or
`'u'`. -/
theorem checker_char {s : String} (h : config_checker (.str s) = true)
    {i : Nat} (hi : i < s.length) :
    s.toList.getD i 'u' = 'l' ∨ s.toList.getD i 'u' = 'u' := by
  simp only [config_checker, List.all_eq_true, Bool.or_eq_true,
    beq_iff_eq] at h
  have hi' : i < s.toList.length := hi
  rw [List.getD_eq_getElem _ _ hi']
  exact h _ (List.getElem_mem hi')

/-- For validated configurations, swapping the arguments of the diff
engine negates every action. -/
theorem difference_list_neg {c1 c2 : String}
    (h1 : config_checker (.str c1) = true)
    (h2 : config_checker (.str c2) = true) (k : Nat) :
    (difference_list c1 c2).getD k 0 = -((difference_list c2 c1).getD k 0) := by
  by_cases hk1 : k < c1.length
  · by_cases hk2 : k < c2.length
    · rw [difference_list_getD hk1 hk2, difference_list_getD hk2 hk1]
      rcases checker_char h1 hk1 with hx | hx <;>
        rcases checker_char h2 hk2 with hy | hy <;>
        rw [hx, hy] <;> decide
    · rw [List.getD_eq_default _ _ (by rw [difference_list_length]; omega),
          List.getD_eq_default _ _ (by rw [difference_list_length]; omega),
          neg_zero]
  · rw [List.getD_eq_default _ _ (by rw [difference_list_length]; omega),
        List.getD_eq_default _ _ (by rw [difference_list_length]; omega),
        neg_zero]

/-! Claim theorems: validator, construction, substitution, order
invariant, identity configuration change, diff engine, configuration
rejection, empty metadata collections. -/

/-- C2 counterexample: `_config_checker` accepts the empty string, while
the claim requires every accepted configuration to be non-empty. -/
theorem config_checker_accepts_empty : config_checker (.str "") = true := by decide

/-- C2 (amended): the configuration validator returns `True` iff the
input is a string every character of which is `'u'` or `'l'`; the empty
string is accepted, non-strings and strings containing a foreign
character are rejected. -/
theorem config_checker_characterization (c : PyConfig) :
    config_checker c = true ↔
      ∃ s, c = .str s ∧ ∀ ch ∈ s.toList, ch = 'u' ∨ ch = 'l' := by
  cases c with
  | str s =>
    simp only [config_checker, List.all_eq_true, Bool.or_eq_true, beq_iff_eq]
    constructor
    · intro h
      refine ⟨s, rfl, fun ch hch => ?_⟩
      rcases h ch hch with h' | h'
      · exact Or.inr h'
      · exact Or.inl h'
    · rintro ⟨s', hs', h⟩
      cases hs'
      intro ch hch
      rcases h ch hch with h' | h'
      · exact Or.inr h'
      · exact Or.inl h'
  | nonStr =>
    constructor
    · intro h
      simp [config_checker] at h
    · rintro ⟨s, hs, -⟩
      cases hs

/-- C3 counterexample: constructing a Tensor with the empty
configuration string succeeds — no `InvalidConfiguration` is raised. -/
theorem empty_config_constructs :
    tensorInit (PyArr.scalar (0 : ℤ)) (PyConfig.str "") =
      .ok ⟨⟨[], fun _ => 0⟩, "", 0⟩ := rfl

/-- C3 (amended): with a recognized array argument, configuration
`"lx"` raises `InvalidConfiguration` while the empty configuration is
accepted (an order-0 Tensor is produced); array argument `None` raises
`InvalidType` for every configuration; every failure returns an error
and no Tensor. -/
theorem construction_errors (a : PyArr ℤ) (arr0 : NDArr ℤ) (c : PyConfig)
    (h : sympyArrayOf a = some arr0) :
    tensorInit a (.str "lx") = .error .invalidConfiguration ∧
    tensorInit a (.str "") = .ok ⟨arr0, "", 0⟩ ∧
    tensorInit (PyArr.pyNone (α := ℤ)) c = .error .invalidType := by
  refine ⟨?_, ?_, rfl⟩
  · rw [tensorInit_some h, if_neg (by decide)]
  · rw [tensorInit_some h, if_pos (by decide)]
    rfl

/-- C3 witness: the amended construction behaviour at the scalar `1`,
shown by instantiating the amended theorem. -/
theorem construction_errors_witness :
    tensorInit (PyArr.scalar (1 : ℤ)) (PyConfig.str "lx") =
        .error .invalidConfiguration ∧
    tensorInit (PyArr.scalar (1 : ℤ)) (PyConfig.str "") =
        .ok ⟨⟨[], fun _ => 1⟩, "", 0⟩ ∧
    tensorInit (PyArr.pyNone (α := ℤ)) (PyConfig.str "ll") =
        .error .invalidType :=
  construction_errors (PyArr.scalar 1) ⟨[], fun _ => 1⟩ (PyConfig.str "ll") rfl

/-- C4 counterexample: `subs` on a tensor with configuration `"u"`
returns a tensor with configuration `"ll"`, not the original one. -/
theorem subs_drops_config :
    Tensor.subs ⟨⟨[2], fun _ => (5 : ℤ)⟩, "u", 1⟩ id =
        .ok ⟨⟨[2], fun _ => 5⟩, "ll", 2⟩ ∧
    ("ll" : String) ≠ "u" :=
  ⟨rfl, by decide⟩

/-- C4 (amended): `subs` always succeeds and returns a new Tensor whose
array is the element-wise substituted array and whose configuration is
the constructor default `"ll"`; the original configuration is preserved
exactly when it is `"ll"`. -/
theorem subs_result (t : Tensor α) (σ : α → α) :
    Tensor.subs t σ = .ok ⟨t.arr.subsMap σ, "ll", 2⟩ := rfl

/-- C5 counterexample: a Tensor constructs successfully from a rank-1
array and a length-3 configuration, so `order = len(config) = 3` while
the array rank is `1`. -/
theorem rank_mismatch_constructs :
    tensorInit (PyArr.list ⟨[2], fun _ => (0 : ℤ)⟩) (PyConfig.str "lll") =
        .ok ⟨⟨[2], fun _ => 0⟩, "lll", 3⟩ ∧
    (⟨[2], fun _ => (0 : ℤ)⟩ : NDArr ℤ).shape.length = 1 ∧ (3 : Nat) ≠ 1 :=
  ⟨rfl, rfl, by decide⟩

/-- C5 (amended): every successfully constructed Tensor satisfies
`order = len(config)`; `subs` and configuration changes preserve this
equality (a validated new configuration has the current configuration's
length), but the array rank is never validated against it. -/
theorem order_invariant [CommRing α] :
    (∀ (a : PyArr α) (c : PyConfig) (t : Tensor α),
        tensorInit a c = .ok t → t.order = t.config.length) ∧
    (∀ (t : Tensor α) (σ : α → α) (t' : Tensor α),
        Tensor.subs t σ = .ok t' → t'.order = t'.config.length) ∧
    (∀ (t : Tensor α) (metric : MetricLike α) (s : String) (out : NDArr α),
        change_config t metric s = .ok out → s.length = t.config.length) := by
  refine ⟨fun a c t h => tensorInit_order h,
          fun t σ t' h => tensorInit_order h, ?_⟩
  intro t metric s out h
  unfold change_config at h
  by_cases hc : s.length = t.config.length ∧ config_checker (.str s) = true
  · exact hc.1
  · rw [if_neg hc] at h
    exact absurd h (by simp)

/-- C5 witness: the order invariant at a concretely constructed scalar
tensor, by instantiating the invariant theorem. -/
theorem order_invariant_witness :
    (⟨⟨[], fun _ => (0 : ℤ)⟩, "ll", 2⟩ : Tensor ℤ).order =
      (⟨⟨[], fun _ => (0 : ℤ)⟩, "ll", 2⟩ : Tensor ℤ).config.length :=
  (order_invariant (α := ℤ)).1 (PyArr.scalar 0) (PyConfig.str "ll") _ rfl

/-- C7: requesting a configuration change to the tensor's own current
configuration makes every action a no-op: no contraction is performed
and the original array is returned unchanged (the input tensor, a pure
value, is not mutated). -/
theorem change_config_identity [CommRing α] (t : Tensor α)
    (metric : MetricLike α) (h : config_checker (.str t.config) = true) :
    change_config t metric t.config = .ok t.arr := by
  unfold change_config
  rw [if_pos ⟨rfl, h⟩, chain_config_change_self]

/-- C7 witness: the identity configuration change on a concrete rank-1
tensor, by instantiating the identity theorem. -/
theorem change_config_identity_witness :
    change_config (⟨⟨[2], fun _ => (3 : ℤ)⟩, "l", 1⟩ : Tensor ℤ)
        ⟨⟨[1, 1], fun _ => 1⟩, ⟨[1, 1], fun _ => 1⟩⟩ "l" =
      .ok ⟨[2], fun _ => 3⟩ :=
  change_config_identity ⟨⟨[2], fun _ => (3 : ℤ)⟩, "l", 1⟩
    ⟨⟨[1, 1], fun _ => 1⟩, ⟨[1, 1], fun _ => 1⟩⟩ (by decide)

/-- C8: the diff engine emits one action per axis position — `0`
(no-op) where the characters agree, `1` (raise) where the position
changes to `'u'`, `-1` (lower) otherwise — and the three quoted
examples hold, reading `Diff(old, new)` as `difference_list new old`. -/
theorem difference_list_characterization (old new : String) :
    (difference_list new old).length = min new.length old.length ∧
    (∀ i, i < new.length → i < old.length →
      (difference_list new old).getD i 0 =
        if new.toList.getD i 'u' = old.toList.getD i 'u' then 0
        else if new.toList.getD i 'u' = 'u' then 1 else -1) ∧
    difference_list "ul" "uu" = [0, -1] ∧
    difference_list "uu" "ll" = [1, 1] ∧
    difference_list "ul" "ul" = [0, 0] := by
  refine ⟨difference_list_length new old, ?_, by decide, by decide, by decide⟩
  intro i h1 h2
  exact difference_list_getD h1 h2

/-- C8 witness: the general per-position characterization instantiated
at position 0 of the pair `("l", "u")`. -/
theorem difference_list_characterization_witness :
    (difference_list "u" "l").getD 0 0 =
      if "u".toList.getD 0 'u' = "l".toList.getD 0 'u' then 0
      else if "u".toList.getD 0 'u' = 'u' then 1 else -1 :=
  (difference_list_characterization "l" "u").2.1 0 (by decide) (by decide)

/-- C9: a requested new configuration whose length differs from the
tensor's current order, or which fails the validator, makes
`_change_config` fail with `InvalidConfiguration` before any
contraction is attempted; the (pure) input tensor is unchanged. -/
theorem change_config_rejects [CommRing α] (t : Tensor α)
    (metric : MetricLike α) (s : String)
    (h : s.length ≠ t.config.length ∨ config_checker (.str s) = false) :
    change_config t metric s = .error .invalidConfiguration := by
  unfold change_config
  rw [if_neg]
  rintro ⟨h1, h2⟩
  rcases h with h | h
  · exact h h1
  · rw [h] at h2
    exact absurd h2 (by simp)

/-- C9 witness: rejection of the invalid configuration `"lx"` on a
concrete tensor, by instantiating the rejection theorem. -/
theorem change_config_rejects_witness :
    change_config (⟨⟨[], fun _ => (0 : ℤ)⟩, "ll", 2⟩ : Tensor ℤ)
        ⟨⟨[1, 1], fun _ => 1⟩, ⟨[1, 1], fun _ => 1⟩⟩ "lx" =
      .error .invalidConfiguration :=
  change_config_rejects ⟨⟨[], fun _ => (0 : ℤ)⟩, "ll", 2⟩
    ⟨⟨[1, 1], fun _ => 1⟩, ⟨[1, 1], fun _ => 1⟩⟩ "lx" (Or.inr (by decide))

/-- C10: an explicitly supplied empty `variables` (or `functions`)
collection behaves exactly as the omitted argument (whose default is the
empty list): the auto-computation runs, so the stored list cannot be
forced empty when the array actually contains such symbols. -/
theorem empty_metadata_autocomputes
    (free_symbols syms function_atoms : List Sym) :
    brtVariables free_symbols syms [] = computeVariables free_symbols syms ∧
    (∀ v ∈ free_symbols, v ∉ syms → brtVariables free_symbols syms [] ≠ []) ∧
    brtFunctions function_atoms [] = function_atoms ∧
    (function_atoms ≠ [] → brtFunctions function_atoms [] ≠ []) := by
  refine ⟨rfl, ?_, rfl, fun h => h⟩
  intro v hv hvs hnil
  have hmem : v ∈ free_symbols.filter fun v => decide (v ∉ syms) :=
    List.mem_filter.mpr ⟨hv, by simpa using hvs⟩
  have hpos : 0 < (free_symbols.filter fun v => decide (v ∉ syms)).length :=
    List.length_pos.mpr (List.ne_nil_of_mem hmem)
  have hnil' : sortByName (free_symbols.filter fun v => decide (v ∉ syms)) = [] :=
    hnil
  have hlen := length_sortByName (free_symbols.filter fun v => decide (v ∉ syms))
  rw [hnil'] at hlen
  simp only [List.length_nil] at hlen
  omega

/-- C10 witness: a one-symbol free-symbol list cannot be forced to an
empty stored `variables`, and a one-atom `functions` list survives, by
instantiating the metadata theorem. -/
theorem empty_metadata_autocomputes_witness :
    brtVariables [⟨"a"⟩] [] [] ≠ [] ∧ brtFunctions [⟨"f"⟩] [] ≠ [] :=
  ⟨(empty_metadata_autocomputes [⟨"a"⟩] [] [⟨"f"⟩]).2.1 ⟨"a"⟩ (by decide)
      (by decide),
   (empty_metadata_autocomputes [⟨"a"⟩] [] [⟨"f"⟩]).2.2.2 (by decide)⟩

/-- C1: the index transform engine folds the per-axis action list left
to right (skipping no-ops); the resulting array keeps the rank and shape
of the input, and each Raise/Lower step at zero-based axis `i` — tensor
product with the selected metric form, contraction of product axes
`(1, 2 + i)`, then the axis reshuffle — amounts to contracting the
metric's second axis with tensor axis `i` while the surviving metric
axis takes position `i` and all other axes keep their relative order. -/
theorem transform_engine_correct [CommRing α] (metric : MetricLike α)
    (arr : NDArr α) (newconfig oldconfig : String) (d n : Nat)
    (hL : metric.lowerT.shape = [d, d]) (hU : metric.upperT.shape = [d, d])
    (ht : arr.shape = List.replicate n d) (hn : 1 ≤ n)
    (hnew : newconfig.length = n) (hold : oldconfig.length = n)
    (hvalid : config_checker (.str newconfig) = true) :
    (chain_config_change metric arr newconfig oldconfig).shape = arr.shape ∧
    (∀ (g t : NDArr α) (i : Nat) (ix : List Nat),
        g.shape = [d, d] → t.shape = List.replicate n d → i < n →
        ix.length = n →
        (transform_step g t i).val ix =
          ∑ k ∈ Finset.range d, g.val [ix.getD i 0, k] * t.val (ix.set i k)) := by
  constructor
  · rw [ht]
    exact chain_config_change_shape hL hU ht hnew hold
  · intro g t i ix hg ht' hi hix
    exact transform_step_val hg ht' hi hix

/-- C1 witness: the transform engine applied to a concrete rank-1
tensor over a 1-dimensional metric, by instantiating the engine
theorem. -/
theorem transform_engine_correct_witness :
    (chain_config_change
        (⟨⟨[1, 1], fun _ => 1⟩, ⟨[1, 1], fun _ => 1⟩⟩ : MetricLike ℤ)
        ⟨[1], fun _ => 7⟩ "u" "l").shape
      = (⟨[1], fun _ => (7 : ℤ)⟩ : NDArr ℤ).shape :=
  (transform_engine_correct ⟨⟨[1, 1], fun _ => 1⟩, ⟨[1, 1], fun _ => 1⟩⟩
    ⟨[1], fun _ => 7⟩ "u" "l" 1 1 rfl rfl rfl (by decide) (by decide)
    (by decide) (by decide)).1

/-- C6: converting a tensor to a valid configuration `c2` of the same
length and then back to its own configuration, with a metric whose
contravariant form is the exact (two-sided) inverse of its covariant
form, restores the original array: the shape is unchanged and every
entry at a valid index has its original symbolic value. -/
theorem config_round_trip [CommRing α] (metric : MetricLike α) (t : Tensor α)
    (c2 : String) (d n : Nat)
    (hL : metric.lowerT.shape = [d, d]) (hU : metric.upperT.shape = [d, d])
    (hinv1 : ∀ a b, a < d → b < d →
      (∑ k ∈ Finset.range d, metric.lowerT.val [a, k] * metric.upperT.val [k, b])
        = if a = b then 1 else 0)
    (hinv2 : ∀ a b, a < d → b < d →
      (∑ k ∈ Finset.range d, metric.upperT.val [a, k] * metric.lowerT.val [k, b])
        = if a = b then 1 else 0)
    (ht : t.arr.shape = List.replicate n d)
    (h1 : config_checker (.str t.config) = true)
    (h2 : config_checker (.str c2) = true)
    (hlen1 : t.config.length = n) (hlen2 : c2.length = n) :
    (chain_config_change metric
        (chain_config_change metric t.arr c2 t.config) t.config c2).shape
      = t.arr.shape ∧
    ∀ ix, ValidIx d n ix →
      (chain_config_change metric
          (chain_config_change metric t.arr c2 t.config) t.config c2).val ix
        = t.arr.val ix := by
  have hfwd_shape : (chain_config_change metric t.arr c2 t.config).shape
      = List.replicate n d := chain_config_change_shape hL hU ht hlen2 hlen1
  constructor
  · rw [ht]
    exact chain_config_change_shape hL hU hfwd_shape hlen1 hlen2
  · intro ix hix
    unfold chain_config_change
    exact foldl_round_trip hL hU hinv1 hinv2
      (difference_list c2 t.config) (difference_list t.config c2) 0 t.arr ht
      (by rw [difference_list_length, difference_list_length, hlen1, hlen2])
      (by rw [difference_list_length, hlen1, hlen2]
          omega)
      (fun k => difference_list_neg h1 h2 k)
      (fun k => difference_list_getD_vals c2 t.config k)
      ix hix

/-- C6 witness: the round trip on a concrete rank-1 tensor with the
1-dimensional identity metric, by instantiating the round-trip
theorem. -/
theorem config_round_trip_witness :
    (chain_config_change
        (⟨⟨[1, 1], fun _ => 1⟩, ⟨[1, 1], fun _ => 1⟩⟩ : MetricLike ℤ)
        (chain_config_change ⟨⟨[1, 1], fun _ => 1⟩, ⟨[1, 1], fun _ => 1⟩⟩
          ⟨[1], fun _ => 7⟩ "u" "l") "l" "u").val [0]
      = (⟨[1], fun _ => (7 : ℤ)⟩ : NDArr ℤ).val [0] :=
  (config_round_trip ⟨⟨[1, 1], fun _ => 1⟩, ⟨[1, 1], fun _ => 1⟩⟩
      ⟨⟨[1], fun _ => 7⟩, "l", 1⟩ "u" 1 1 rfl rfl
      (fun a b ha hb => by
        have ha0 : a = 0 := by omega
        have hb0 : b = 0 := by omega
        subst ha0
        subst hb0
        decide)
      (fun a b ha hb => by
        have ha0 : a = 0 := by omega
        have hb0 : b = 0 := by omega
        subst ha0
        subst hb0
        decide)
      rfl (by decide) (by decide) (by decide) (by decide)).2 [0]
    ⟨rfl, by
      intro x hx
      simp at hx
      omega⟩

end einsteinpy
